import Mathlib

/-!
Shallow embedding of the yt-backend server (src/server.py) and proofs of the
specification claims about it.  Python strings are modeled as Lean `String`
(ASCII behaviour of `.lower()`, `\w`, whitespace), Python floats as `ℚ`,
Python `None`-able fields as `Option`, and the two regular-expression
searches of `parse_height` as direct leftmost-match scanners.
-/

set_option maxRecDepth 4000

/-- Lowercase model of Python `str.lower()` (ASCII range). -/
def lowerStr (s : String) : String := ⟨s.data.map Char.toLower⟩

/-- Model of Python `needle in haystack` prefix test on character lists. -/
def startsWithL : List Char → List Char → Bool
  | [], _ => true
  | _ :: _, [] => false
  | a :: as, b :: bs => a = b && startsWithL as bs

/-- Model of Python `str.startswith`. -/
def startsWithStr (s pat : String) : Bool := startsWithL pat.data s.data

/-- Substring occurrence test on character lists (Python `sub in s`). -/
def hasSubL (needle : List Char) : List Char → Bool
  | [] => needle.isEmpty
  | c :: rest => startsWithL needle (c :: rest) || hasSubL needle rest

/-- Model of Python `sub in s` for strings. -/
def hasSubStr (s sub : String) : Bool := hasSubL sub.data s.data

/-- Model of Python `str.endswith`. -/
def hasSuffixStr (s pat : String) : Bool := startsWithL pat.data.reverse s.data.reverse

/-- Numeric value of an optional float field, Python `float(x or 0)`. -/
def qOr0 (o : Option ℚ) : ℚ := o.getD 0

/-- Model of Python `str(x or "none").lower()` on an optional string field. -/
def orNoneLower (o : Option String) : String :=
  lowerStr (match o with
    | none => "none"
    | some s => if s = "" then "none" else s)

/-- Model of Python `str(x or "").lower()` on an optional string field. -/
def orEmptyLower (o : Option String) : String :=
  lowerStr (match o with
    | none => ""
    | some s => s)

/-- One raw format record from the external engine (a loosely-typed Python
dict); every field the server reads, typed with explicit absence. -/
structure Fmt where
  format_id : Option String := none
  height : Option Int := none
  format_note : Option String := none
  resolution : Option String := none
  format : Option String := none
  ext : Option String := none
  protocol : Option String := none
  vcodec : Option String := none
  acodec : Option String := none
  tbr : Option ℚ := none
  fps : Option ℚ := none
  abr : Option ℚ := none
  deriving DecidableEq, Repr

/-- Default record with every field absent. -/
def defFmt : Fmt := {}

/-- Numeric value of a decimal digit character. -/
def d2n (c : Char) : Nat := c.toNat - 48

/-- Value of a digit string, most significant first. -/
def digitsToNat (l : List Char) : Nat := l.foldl (fun a c => 10 * a + d2n c) 0

/-- One attempt of the regex `(\d{3,4})p` at the current position: greedy
four digits then the letter p, else three digits then p. -/
def pAt : List Char → Option Nat
  | a :: b :: c :: d :: e :: _ =>
    if a.isDigit && b.isDigit && c.isDigit && d.isDigit && e = 'p' then
      some (digitsToNat [a, b, c, d])
    else if a.isDigit && b.isDigit && c.isDigit && d = 'p' then
      some (digitsToNat [a, b, c])
    else none
  | [a, b, c, d] =>
    if a.isDigit && b.isDigit && c.isDigit && d = 'p' then
      some (digitsToNat [a, b, c])
    else none
  | _ => none

/-- Leftmost match of `re.search(r"(\d{3,4})p", s)`: scan start positions
left to right. -/
def searchPL : List Char → Option Nat
  | [] => none
  | c :: rest =>
    match pAt (c :: rest) with
    | some n => some n
    | none => searchPL rest

/-- Python regex word character (`\w`, ASCII range). -/
def isWordChar (c : Char) : Bool := c.isAlphanum || c = '_'

/-- Word-boundary test against the list of characters after a match. -/
def boundaryAfter : List Char → Bool
  | [] => true
  | r :: _ => !isWordChar r

/-- Second group `(\d{3,4})\b` of the resolution regex, greedy with
backtracking: four digits then a boundary, else three digits then a
boundary. -/
def xTail2 : List Char → Option Nat
  | a :: b :: c :: d :: rest =>
    if a.isDigit && b.isDigit && c.isDigit && d.isDigit && boundaryAfter rest then
      some (digitsToNat [a, b, c, d])
    else if a.isDigit && b.isDigit && c.isDigit && !isWordChar d then
      some (digitsToNat [a, b, c])
    else none
  | [a, b, c] =>
    if a.isDigit && b.isDigit && c.isDigit then some (digitsToNat [a, b, c]) else none
  | _ => none

/-- One attempt of `(\d{3,4})x(\d{3,4})\b` at a position whose left word
boundary already holds: first group greedy four digits then backtrack to
three, then the literal x, then the second group. -/
def xAt (l : List Char) : Option Nat :=
  (match l with
   | a :: b :: c :: d :: e :: rest =>
     if a.isDigit && b.isDigit && c.isDigit && d.isDigit && e = 'x' then xTail2 rest else none
   | _ => none)
  <|>
  (match l with
   | a :: b :: c :: d :: rest =>
     if a.isDigit && b.isDigit && c.isDigit && d = 'x' then xTail2 rest else none
   | _ => none)

/-- Leftmost match of `re.search(r"\b(\d{3,4})x(\d{3,4})\b", s)`;
`prevWord` records whether the previous character was a word character
(false at the start of the string). -/
def searchXL (prevWord : Bool) : List Char → Option Nat
  | [] => none
  | c :: rest =>
    match (if !prevWord then xAt (c :: rest) else none) with
    | some n => some n
    | none => searchXL (isWordChar c) rest

/-- Search one free-text field the way the `parse_height` loop body does:
skip a non-string value, lowercase, try the `(\d{3,4})p` regex, then the
`\b(\d{3,4})x(\d{3,4})\b` regex (the second number is returned). -/
def fieldSearch (v : Option String) : Option Int :=
  match v with
  | none => none
  | some s =>
    let l := (lowerStr s).data
    match searchPL l with
    | some n => some (n : Int)
    | none =>
      match searchXL false l with
      | some n => some (n : Int)
      | none => none

/-- The `for field in (...)` loop of `parse_height`: first field whose
search succeeds wins. -/
def textLoop : List (Option String) → Option Int
  | [] => none
  | v :: rest =>
    match fieldSearch v with
    | some n => some n
    | none => textLoop rest

/-- Embedding of `parse_height` (src/server.py:76): a present positive
direct numeric height, else the free-text scan of `format_note`,
`resolution`, `format` in that order. -/
def parse_height (f : Fmt) : Option Int :=
  match f.height with
  | some h => if 0 < h then some h else textLoop [f.format_note, f.resolution, f.format]
  | none => textLoop [f.format_note, f.resolution, f.format]

/-- Embedding of `format_score` (src/server.py:99): additive score over
codecs, container, protocol and rates. -/
def format_score (f : Fmt) : ℚ :=
  (if orNoneLower f.vcodec ≠ "none" then 1000 else 0)
  + (if orNoneLower f.acodec ≠ "none" then 180 else 0)
  + (if orEmptyLower f.ext = "mp4" then 120 else 0)
  + (if startsWithStr (orEmptyLower f.protocol) "http" then 60 else 0)
  + (if hasSubStr (orEmptyLower f.protocol) "m3u8" then -20 else 0)
  + qOr0 f.tbr / 20
  + qOr0 f.fps

/-- Decimal digit rendered as a character (only called with values below
ten). -/
def digitCh : Nat → Char
  | 0 => '0' | 1 => '1' | 2 => '2' | 3 => '3' | 4 => '4'
  | 5 => '5' | 6 => '6' | 7 => '7' | 8 => '8' | _ => '9'

/-- Fuelled decimal rendering, most significant digit first; the fuel is
a strict upper bound on the value, so it never runs out. -/
def decGo : Nat → Nat → List Char
  | 0, _ => []
  | fuel + 1, n => if n < 10 then [digitCh n] else decGo fuel (n / 10) ++ [digitCh (n % 10)]

/-- Decimal rendering of a natural number (the Python f-string `{n}`). -/
def decChars (n : Nat) : List Char := decGo (n + 1) n

/-- Decimal rendering of an integer (the Python f-string `{h}`). -/
def intDec (h : Int) : String :=
  if h < 0 then "-" ++ ⟨decChars (-h).toNat⟩ else ⟨decChars h.toNat⟩

/-- Quality-ladder label for a height, the Python f-string `f"{h}p"`. -/
def labelOfInt (h : Int) : String := intDec h ++ "p"

/-- One entry of the quality ladder returned by `/api/fetch` (a Python
dict with keys label, format_id, type, height). -/
structure Quality where
  label : String
  format_id : String
  type : String
  height : Int
  deriving DecidableEq, Repr

/-- Python `str(fmt.get("format_id"))`: `None` renders as `"None"`. -/
def strId (f : Fmt) : String :=
  match f.format_id with
  | some s => s
  | none => "None"

/-- Python truthiness of the `format_id` field (`if not format_id:
continue`). -/
def usableId (f : Fmt) : Bool :=
  match f.format_id with
  | some s => !(s = "")
  | none => false

/-- Height gate of `build_qualities` (src/server.py:169): the parsed
height, kept only when truthy and at least 144. -/
def heightKey (f : Fmt) : Option Int :=
  match parse_height f with
  | some h => if h ≠ 0 ∧ 144 ≤ h then some h else none
  | none => none

/-- Insertion-ordered dictionary update of `best_by_height[height]`: keep
the previous entry unless the new one scores strictly higher; a new key is
appended at the end (Python dict insertion order). -/
def updateBest (m : List (Int × Fmt)) (h : Int) (f : Fmt) : List (Int × Fmt) :=
  match m with
  | [] => [(h, f)]
  | (k, g) :: rest =>
    if k = h then
      if format_score f > format_score g then (k, f) :: rest else (k, g) :: rest
    else (k, g) :: updateBest rest h f

/-- Association-list lookup, Python `dict.get`. -/
def lookupA (m : List (Int × Fmt)) (h : Int) : Option Fmt :=
  match m with
  | [] => none
  | (k, g) :: rest => if k = h then some g else lookupA rest h

/-- One iteration of the `for fmt in formats` loop of `build_qualities`:
accumulates `best_by_height` and `audio_candidates`. -/
def scanStep (acc : List (Int × Fmt) × List Fmt) (f : Fmt) : List (Int × Fmt) × List Fmt :=
  if usableId f then
    let vc := orNoneLower f.vcodec
    let ac := orNoneLower f.acodec
    ((if vc ≠ "none" then
        match heightKey f with
        | some h => updateBest acc.1 h f
        | none => acc.1
      else acc.1),
     (if vc = "none" ∧ ac ≠ "none" then acc.2 ++ [f] else acc.2))
  else acc

/-- The full format scan of `build_qualities` (src/server.py:159). -/
def scanFormats (formats : List Fmt) : List (Int × Fmt) × List Fmt :=
  formats.foldl scanStep ([], [])

/-- Descending insertion of one key, modelling `sorted(keys,
reverse=True)` on the distinct dictionary keys. -/
def insertDesc (x : Int) : List Int → List Int
  | [] => [x]
  | y :: ys => if x ≥ y then x :: y :: ys else y :: insertDesc x ys

/-- Descending sort of the height keys. -/
def sortDesc (l : List Int) : List Int := l.foldr insertDesc []

/-- Embedding of the inner `audio_score` of `build_qualities`
(src/server.py:204): audio bitrate plus an m4a container bonus. -/
def audio_score (a : Fmt) : ℚ :=
  qOr0 a.abr + (if orEmptyLower a.ext = "m4a" then 50 else 0)

/-- Python `max(xs, key=k)`: first maximal element (a later candidate
replaces the current one only when strictly greater). -/
def maxBy (k : Fmt → ℚ) : Fmt → List Fmt → Fmt
  | cur, [] => cur
  | cur, x :: xs => maxBy k (if k x > k cur then x else cur) xs

/-- Label deduplication loop at the end of `build_qualities`
(src/server.py:230): keep the first occurrence of each label. -/
def dedupGo (seen : List String) : List Quality → List Quality
  | [] => []
  | q :: rest =>
    if q.label ∈ seen then dedupGo seen rest
    else q :: dedupGo (q.label :: seen) rest

/-- Deduplicate a quality list by label, first occurrence wins. -/
def dedupByLabel (l : List Quality) : List Quality := dedupGo [] l

/-- The guaranteed fallback video entry. -/
def bestAvailableQ : Quality := ⟨"Best Available", "best", "video", 0⟩

/-- The audio entry appended by `build_qualities`: the audio-score-best
candidate when one exists, else the generic audio fallback. -/
def audioQ (audio : List Fmt) : Quality :=
  match audio with
  | [] => ⟨"Audio Only", "bestaudio/best", "audio", 0⟩
  | a :: rest => ⟨"Audio Only", strId (maxBy audio_score a rest), "audio", 0⟩

/-- The height-ladder entry emitted for one surviving height. -/
def ladderQ (m : List (Int × Fmt)) (h : Int) : Quality :=
  ⟨labelOfInt h, strId ((lookupA m h).getD defFmt), "video", h⟩

/-- Embedding of `build_qualities` (src/server.py:154): scan the formats,
emit one entry per surviving height in descending order, append the
fallback video entry and the audio entry, then deduplicate by label. -/
def build_qualities (formats : List Fmt) : List Quality :=
  let scanned := scanFormats formats
  let ladder := (sortDesc (scanned.1.map Prod.fst)).map (ladderQ scanned.1)
  dedupByLabel (ladder ++ [bestAvailableQ] ++ [audioQ scanned.2])

/-- The download request body (pydantic model `DownloadRequest`): all four
fields are required strings. -/
structure DownloadReq where
  url : String
  format_id : String
  quality_label : String
  format_type : String
  deriving DecidableEq, Repr

/-- The `GENERIC_SELECTORS` set (src/server.py:59); a list models the
Python set, used only for membership. -/
def GENERIC_SELECTORS : List String :=
  ["best", "b", "bestvideo+bestaudio/best", "bestvideo*+bestaudio/best",
   "bv*+ba/b", "bestvideo+bestaudio", "bestaudio/best"]

/-- Embedding of `unique_keep_order` (src/server.py:268), with the seen
set modelled as the list of already-kept items. -/
def ukoGo (seen : List String) : List String → List String
  | [] => []
  | x :: xs =>
    if x ∈ seen then ukoGo seen xs
    else x :: ukoGo (x :: seen) xs

/-- Order-preserving deduplication of the attempt list. -/
def unique_keep_order (items : List String) : List String := ukoGo [] items

/-- Python ASCII whitespace for `str.strip()`. -/
def isPySpace (c : Char) : Bool :=
  c = ' ' || c = '\t' || c = '\n' || c = '\r' || c = '\x0b' || c = '\x0c'

/-- Model of Python `str.strip()`: drop leading and trailing whitespace. -/
def pyStrip (s : String) : String :=
  ⟨((s.data.dropWhile isPySpace).reverse.dropWhile isPySpace).reverse⟩

/-- Embedding of `build_format_attempts` (src/server.py:279). -/
def build_format_attempts (req : DownloadReq) : List String :=
  let requested := pyStrip req.format_id
  let reqType := lowerStr req.format_type
  if reqType = "audio" then
    unique_keep_order ((if requested ≠ "" then [requested] else []) ++
      ["bestaudio[ext=m4a]/bestaudio/best", "bestaudio/best", "best"])
  else
    unique_keep_order
      ((if requested ≠ "" ∧ requested ∉ GENERIC_SELECTORS then
          [requested ++ "+bestaudio/best", requested ++ "/best"]
        else if requested ≠ "" then [requested]
        else []) ++
       ["bestvideo[ext=mp4]+bestaudio[ext=m4a]/best[ext=mp4]/best",
        "bestvideo*+bestaudio/best", "best[ext=mp4]/best", "best"])

/-- Outcome of one invocation of the external engine (yt-dlp) for one
selector: either the engine raised an exception with a message, or it
reported success and the artifact search afterwards found the given file
(or none).  Filesystem cleanup between attempts is a side effect on state
outside this model. -/
inductive EngineResult where
  | err (msg : String)
  | ok (found : Option String)
  deriving DecidableEq, Repr

/-- Python `s or default` on a string: the empty string is falsy, so it
falls back to the default. -/
def pyOrStr (s dflt : String) : String := if s = "" then dflt else s

/-- Python `x or default` on an optional string: `None` and the empty
string are both falsy. -/
def orDefaultStr (o : Option String) (dflt : String) : String :=
  match o with
  | none => dflt
  | some e => pyOrStr e dflt

/-- Embedding of the attempt loop of `download_video` (src/server.py:372):
walk the plan, record the last error, stop at the first attempt whose
engine call succeeds and whose artifact is found; when the plan is
exhausted raise HTTP 500 with `last_error or` the generic message
(Python `or`: a `None` or empty-string diagnostic yields the generic
message). -/
def downloadLoop (engine : String → EngineResult) :
    List String → Option String → Except (Nat × String) String
  | [], lastErr =>
    .error (500, orDefaultStr lastErr "Download failed after all fallback attempts.")
  | fmt :: rest, _lastErr =>
    match engine fmt with
    | .err e => downloadLoop engine rest (some e)
    | .ok none =>
      downloadLoop engine rest (some "Download completed but output file was not found.")
    | .ok (some p) => .ok p

/-- Embedding of the `/api/download` endpoint (src/server.py:364) up to
the located artifact: plan the attempts, then run the loop.  The returned
string is the stored path; response-body naming is downstream of the
claims. -/
def download_video (engine : String → EngineResult) (req : DownloadReq) :
    Except (Nat × String) String :=
  downloadLoop engine (build_format_attempts req) none

/-- Metadata held by an extraction result, as far as the claims need it. -/
structure VideoInfo where
  formats : List Fmt
  deriving Repr

/-- Embedding of the `/api/fetch` endpoint (src/server.py:324): any
engine exception becomes HTTP 400 with the exception text, a falsy info
becomes HTTP 400, otherwise the quality ladder is built.  Title,
thumbnail and the other echo fields are downstream of the claims. -/
def fetch_video (extract : Except String (Option VideoInfo)) :
    Except (Nat × String) (List Quality) :=
  match extract with
  | .error e => .error (400, e)
  | .ok none => .error (400, "Could not extract video info.")
  | .ok (some info) => .ok (build_qualities info.formats)

/-- One entry of the download-directory listing: its name, whether the
joined path is a regular file, and its modification time. -/
structure DirEntry where
  name : String
  isFile : Bool
  mtime : ℚ
  deriving DecidableEq, Repr

/-- The candidate filter of `find_downloaded_file` (src/server.py:252):
keep names with the uid as a name prefix, without a partial/temporary
suffix, that are regular files. -/
def fileCand (uid : String) (e : DirEntry) : Bool :=
  startsWithStr e.name uid
    && !(hasSuffixStr e.name ".part")
    && !(hasSuffixStr e.name ".ytdl")
    && !(hasSuffixStr e.name ".tmp")
    && e.isFile

/-- Stable descending insertion by modification time (later-listed equal
keys stay behind earlier ones), modelling Python `list.sort(key=mtime,
reverse=True)`. -/
def insMt (c : DirEntry) : List DirEntry → List DirEntry
  | [] => [c]
  | d :: ds => if c.mtime ≥ d.mtime then c :: d :: ds else d :: insMt c ds

/-- Stable descending sort by modification time. -/
def sortMt (l : List DirEntry) : List DirEntry := l.foldr insMt []

/-- Embedding of `find_downloaded_file` (src/server.py:250): filter the
directory listing, sort by modification time descending, return the
first name (paths are represented by names inside the download
directory). -/
def find_downloaded_file (uid : String) (listing : List DirEntry) : Option String :=
  match sortMt (listing.filter (fileCand uid)) with
  | [] => none
  | c :: _ => some c.name

/-- Model of POSIX `os.path.basename`: the characters after the last
slash. -/
def basenameStr (s : String) : String :=
  ⟨(s.data.reverse.takeWhile (fun c => c ≠ '/')).reverse⟩

/-- Result of the file-serving endpoint. -/
inductive ServeResult where
  | badRequest
  | notFound
  | file (path : String)
  deriving DecidableEq, Repr

/-- Model of `os.path.join(dir, name)` for the names this endpoint joins
(never absolute, since slash-containing names are rejected first). -/
def pathJoin (dir name : String) : String := dir ++ "/" ++ name

/-- Embedding of `serve_file` (src/server.py:425): reject a name that
differs from its basename with 400, else 404 when the joined path does
not exist, else serve the joined path.  The existence check is an oracle
for the filesystem. -/
def serve_file (dir : String) (filename : String) (existsAt : String → Bool) : ServeResult :=
  let safe := basenameStr filename
  if safe ≠ filename then .badRequest
  else if !(existsAt (pathJoin dir safe)) then .notFound
  else .file (pathJoin dir safe)

/-- Spec-worded reading of claim C4: the p-pattern is consulted only in
the quality-note text and the WIDTHxHEIGHT pattern only in the resolution
text. -/
def parse_height_claimed (f : Fmt) : Option Int :=
  match f.height with
  | some h => if 0 < h then some h else pNoteOnly f
  | none => pNoteOnly f
where
  pNoteOnly (f : Fmt) : Option Int :=
    (match f.format_note with
     | none => none
     | some s =>
       match searchPL (lowerStr s).data with
       | some n => some (n : Int)
       | none => none)
    <|>
    (match f.resolution with
     | none => none
     | some s =>
       match searchXL false (lowerStr s).data with
       | some n => some (n : Int)
       | none => none)

/-- Spec-shaped statement of the amended C4 precedence: direct positive
height first, then the three free-text fields in order as a prioritized
chain, each field trying the p-pattern before the WIDTHxHEIGHT pattern. -/
def parse_height_amended (f : Fmt) : Option Int :=
  match f.height with
  | some h =>
    if 0 < h then some h
    else fieldSearch f.format_note <|> fieldSearch f.resolution <|> fieldSearch f.format
  | none => fieldSearch f.format_note <|> fieldSearch f.resolution <|> fieldSearch f.format

/-- An attempt that did not produce an artifact: the engine raised, or it
reported success and no file was found. -/
def attemptFailed (r : EngineResult) : Prop := r = .ok none ∨ ∃ e, r = .err e

/-- The diagnostic recorded for a failed attempt (src/server.py:395-398):
the exception text, or the fixed missing-artifact message. -/
def failDetail : EngineResult → String
  | .err e => e
  | .ok _ => "Download completed but output file was not found."

/-- An unconditional generic selector: bare `best`, or a compound whose
final fallback alternative is bare `best`. -/
def uncondGeneric (s : String) : Bool := s == "best" || hasSuffixStr s "/best"

/-- The video-capable formats that normalize to a given height (claim C1
wording: usable id, non-none video codec, parsed height equal to h). -/
def normGroup (formats : List Fmt) (h : Int) : List Fmt :=
  formats.filter (fun f =>
    usableId f && !(orNoneLower f.vcodec == "none") && (parse_height f == some h))

/-- The video-capable formats whose gated height key (truthy and at least
144) equals a given height: the formats competing for one
`best_by_height` slot. -/
def grpK (formats : List Fmt) (h : Int) : List Fmt :=
  formats.filter (fun f =>
    usableId f && !(orNoneLower f.vcodec == "none") && (heightKey f == some h))

/-- Slash-separated segments of a character list (POSIX path segments). -/
def splitSlash : List Char → List (List Char)
  | [] => [[]]
  | c :: rest =>
    match splitSlash rest with
    | [] => [[c]]
    | seg :: segs => if c = '/' then [] :: seg :: segs else (c :: seg) :: segs

/-- A path containing `..` as one of its slash-separated segments. -/
def hasTraversalSeg (s : String) : Bool := (splitSlash s.data).contains ['.', '.']

lemma textLoop_three (a b c : Option String) :
    textLoop [a, b, c] = (fieldSearch a <|> fieldSearch b <|> fieldSearch c) := by
  cases ha : fieldSearch a <;> cases hb : fieldSearch b <;> cases hc : fieldSearch c <;>
    simp [textLoop, ha, hb, hc]

/-- C3 (counterexample): the claimed categorical ordering — mp4-container
bonus strictly above the HTTP-protocol bonus strictly above the
paired-audio-codec bonus — is false on the code: on records isolating
each weight, the audio-codec bonus (180) exceeds the mp4 bonus (120). -/
theorem spec_c3_counterexample :
    ¬ (format_score { ext := some "mp4" } > format_score { protocol := some "https" } ∧
       format_score { protocol := some "https" } > format_score { acodec := some "mp4a.40.2" }) := by
  have h2 : format_score { protocol := some "https" } = 60 := by
    simp +decide only [format_score, qOr0]
    norm_num
  have h3 : format_score { acodec := some "mp4a.40.2" } = 180 := by
    simp +decide only [format_score, qOr0]
    norm_num
  rw [h2, h3]
  norm_num

/-- C3 (amended): in `format_score` the paired-audio-codec bonus (180) is
the largest of the three categorical weights, strictly above the
mp4-container bonus (120), strictly above the HTTP-protocol bonus (60);
the bitrate contributes scaled down by 20 and the frame rate contributes
unscaled. -/
theorem spec_c3_amended :
    format_score { acodec := some "mp4a.40.2" } = 180 ∧
    format_score { ext := some "mp4" } = 120 ∧
    format_score { protocol := some "https" } = 60 ∧
    ((180 : ℚ) > 120 ∧ (120 : ℚ) > 60) ∧
    (∀ t : ℚ, format_score { tbr := some t } = t / 20) ∧
    ∀ x : ℚ, format_score { fps := some x } = x := by
  refine ⟨?_, ?_, ?_, by norm_num, ?_, ?_⟩
  · simp +decide only [format_score, qOr0]
    norm_num
  · simp +decide only [format_score, qOr0]
    norm_num
  · simp +decide only [format_score, qOr0]
    norm_num
  · intro t
    simp +decide only [format_score, qOr0, Option.getD]
    norm_num
  · intro x
    simp +decide only [format_score, qOr0, Option.getD]
    norm_num

/-- C4 (counterexample): the claimed precedence — p-pattern only in the
quality note, WIDTHxHEIGHT only in the resolution text — is false on the
code: a record whose only text is a WIDTHxHEIGHT pattern in the quality
note parses to 480, while the claimed reading yields absent. -/
theorem spec_c4_counterexample :
    parse_height { format_note := some "640x480" } = some 480 ∧
    parse_height_claimed { format_note := some "640x480" } = none := by decide

/-- C4 (amended): `parse_height` follows the precedence: a present
positive direct numeric height wins over any free text; otherwise the
fields format_note, resolution, format are scanned in order, each trying
the p-pattern and then the WIDTHxHEIGHT pattern; if nothing matches the
result is absent, never a silent zero. -/
theorem spec_c4_amended : ∀ f : Fmt,
    parse_height f = parse_height_amended f ∧
    (∀ h, f.height = some h → 0 < h → parse_height f = some h) ∧
    (f.height = none → parse_height f = textLoop [f.format_note, f.resolution, f.format]) := by
  intro f
  refine ⟨?_, ?_, ?_⟩
  · cases hh : f.height with
    | none => simp [parse_height, parse_height_amended, hh, textLoop_three]
    | some h =>
      by_cases hpos : 0 < h <;>
        simp [parse_height, parse_height_amended, hh, hpos, textLoop_three]
  · intro h hh hpos
    simp [parse_height, hh, hpos]
  · intro hh
    simp [parse_height, hh]

/-- Witness for C4 (amended): a record with a direct height 720 and a
conflicting quality note 1080p parses to 720. -/
theorem spec_c4_witness :
    parse_height { height := some 720, format_note := some "1080p" } = some 720 :=
  (spec_c4_amended { height := some 720, format_note := some "1080p" }).2.1 720 rfl (by norm_num)

lemma downloadLoop_error_status (engine : String → EngineResult) :
    ∀ (attempts : List String) (le : Option String) (st : Nat) (msg : String),
      downloadLoop engine attempts le = .error (st, msg) → st = 500 := by
  intro attempts
  induction attempts with
  | nil =>
    intro le st msg h
    simp only [downloadLoop, Except.error.injEq, Prod.mk.injEq] at h
    omega
  | cons fmt rest ih =>
    intro le st msg h
    rcases heng : engine fmt with e | found
    · rw [downloadLoop, heng] at h
      exact ih _ _ _ h
    · cases found with
      | none =>
        rw [downloadLoop, heng] at h
        exact ih _ _ _ h
      | some p =>
        rw [downloadLoop, heng] at h
        exact absurd h (by simp)

/-- C9 (counterexample): a timeout does not get a distinct status: when
every engine invocation raises a timeout exception, the download endpoint
fails with the generic server-fault status 500 carrying the exception
text, exactly as any exhausted-fallback failure does. -/
theorem spec_c9_counterexample :
    download_video (fun _ => EngineResult.err "Read timed out.")
      ⟨"u", "137", "720p", "video"⟩ = .error (500, "Read timed out.") := rfl

/-- C9 (amended): there is no distinct timeout status: every failure of
the download endpoint, timeouts included, surfaces as status 500, and
every failure of the metadata fetch, timeouts included, surfaces as
status 400. -/
theorem spec_c9_amended :
    (∀ (engine : String → EngineResult) (req : DownloadReq) (st : Nat) (msg : String),
        download_video engine req = .error (st, msg) → st = 500) ∧
    ∀ (r : Except String (Option VideoInfo)) (st : Nat) (msg : String),
        fetch_video r = .error (st, msg) → st = 400 := by
  constructor
  · intro engine req st msg h
    exact downloadLoop_error_status engine _ _ _ _ h
  · intro r st msg h
    match r with
    | .error e =>
      simp only [fetch_video, Except.error.injEq, Prod.mk.injEq] at h
      omega
    | .ok none =>
      simp only [fetch_video, Except.error.injEq, Prod.mk.injEq] at h
      omega
    | .ok (some info) =>
      exact absurd h (by simp [fetch_video])

/-- Witness for C9 (amended): both status implications applied at a
concrete timed-out engine run and a concrete failed extraction. -/
theorem spec_c9_witness : 500 = 500 ∧ 400 = 400 :=
  ⟨spec_c9_amended.1 (fun _ => EngineResult.err "t") ⟨"u", "137", "720p", "video"⟩ 500 "t" rfl,
   spec_c9_amended.2 (Except.error "t") 400 "t" rfl⟩

lemma mem_ukoGo (x : String) : ∀ (l seen : List String),
    x ∈ ukoGo seen l ↔ x ∈ l ∧ x ∉ seen := by
  intro l
  induction l with
  | nil => intro seen; simp [ukoGo]
  | cons y ys ih =>
    intro seen
    by_cases hy : y ∈ seen
    · simp only [ukoGo, if_pos hy, ih, List.mem_cons]
      constructor
      · rintro ⟨hx, hns⟩
        exact ⟨Or.inr hx, hns⟩
      · rintro ⟨hx | hx, hns⟩
        · exact absurd (hx ▸ hy) hns
        · exact ⟨hx, hns⟩
    · simp only [ukoGo, if_neg hy, List.mem_cons, ih]
      constructor
      · rintro (rfl | ⟨hx, hns⟩)
        · exact ⟨Or.inl rfl, hy⟩
        · exact ⟨Or.inr hx, fun hc => hns (Or.inr hc)⟩
      · rintro ⟨rfl | hx, hns⟩
        · exact Or.inl rfl
        · by_cases hxy : x = y
          · exact Or.inl hxy
          · refine Or.inr ⟨hx, fun hc => ?_⟩
            rcases hc with h1 | h1
            · exact hxy h1
            · exact hns h1

lemma nodup_ukoGo : ∀ (l seen : List String), (ukoGo seen l).Nodup := by
  intro l
  induction l with
  | nil => intro seen; simp [ukoGo]
  | cons y ys ih =>
    intro seen
    by_cases hy : y ∈ seen
    · simpa [ukoGo, hy] using ih seen
    · simp only [ukoGo, if_neg hy]
      refine List.nodup_cons.mpr ⟨fun hc => ?_, ih _⟩
      exact ((mem_ukoGo y ys (y :: seen)).mp hc).2 (List.mem_cons_self y seen)

lemma ukoGo_append_single (x : String) : ∀ (l seen : List String),
    x ∉ seen → x ∉ l → ukoGo seen (l ++ [x]) = ukoGo seen l ++ [x] := by
  intro l
  induction l with
  | nil =>
    intro seen hxs _
    simp [ukoGo, hxs]
  | cons y ys ih =>
    intro seen hxs hxl
    have hxy : x ≠ y := fun h => hxl (h ▸ List.mem_cons_self y ys)
    have hxys : x ∉ ys := fun h => hxl (List.mem_cons_of_mem y h)
    by_cases hy : y ∈ seen
    · simp only [List.cons_append, ukoGo, if_pos hy]
      exact ih seen hxs hxys
    · simp only [List.cons_append, ukoGo, if_neg hy]
      show y :: ukoGo (y :: seen) (ys ++ [x]) = y :: (ukoGo (y :: seen) ys ++ [x])
      rw [ih (y :: seen) (by simp [hxy, hxs]) hxys]

lemma bfa_best_mem (req : DownloadReq) : "best" ∈ build_format_attempts req := by
  by_cases haud : lowerStr req.format_type = "audio" <;>
    simp [build_format_attempts, haud, unique_keep_order, mem_ukoGo]

lemma downloadLoop_ok (engine : String → EngineResult) :
    ∀ (attempts : List String) (le : Option String) (p : String),
      downloadLoop engine attempts le = .ok p →
      ∃ pre fmt post, attempts = pre ++ fmt :: post ∧ engine fmt = .ok (some p) ∧
        ∀ g ∈ pre, attemptFailed (engine g) := by
  intro attempts
  induction attempts with
  | nil =>
    intro le p h
    exact absurd h (by simp [downloadLoop])
  | cons fmt rest ih =>
    intro le p h
    rcases heng : engine fmt with e | found
    · rw [downloadLoop, heng] at h
      obtain ⟨pre, f2, post, h1, h2, h3⟩ := ih _ _ h
      refine ⟨fmt :: pre, f2, post, by rw [h1, List.cons_append], h2, ?_⟩
      intro g hg
      rcases List.mem_cons.mp hg with rfl | hg2
      · exact Or.inr ⟨e, heng⟩
      · exact h3 g hg2
    · cases found with
      | none =>
        rw [downloadLoop, heng] at h
        obtain ⟨pre, f2, post, h1, h2, h3⟩ := ih _ _ h
        refine ⟨fmt :: pre, f2, post, by rw [h1, List.cons_append], h2, ?_⟩
        intro g hg
        rcases List.mem_cons.mp hg with rfl | hg2
        · exact Or.inl heng
        · exact h3 g hg2
      | some q =>
        rw [downloadLoop, heng] at h
        have hq : q = p := by simpa using h
        exact ⟨[], fmt, rest, rfl, by rw [heng, hq], by simp⟩

lemma downloadLoop_exhausted (engine : String → EngineResult) :
    ∀ (attempts : List String) (le : Option String),
      (∀ a ∈ attempts, attemptFailed (engine a)) →
      downloadLoop engine attempts le =
        .error (500, match attempts.getLast? with
          | none => orDefaultStr le "Download failed after all fallback attempts."
          | some a =>
            pyOrStr (failDetail (engine a)) "Download failed after all fallback attempts.") := by
  intro attempts
  induction attempts with
  | nil =>
    intro le _
    simp [downloadLoop]
  | cons fmt rest ih =>
    intro le hall
    have htail : ∀ a ∈ rest, attemptFailed (engine a) :=
      fun a ha => hall a (List.mem_cons_of_mem fmt ha)
    have hfmt := hall fmt (List.mem_cons_self fmt rest)
    rcases heng : engine fmt with e | found
    · have hstep : downloadLoop engine (fmt :: rest) le = downloadLoop engine rest (some e) := by
        rw [downloadLoop, heng]
      rw [hstep, ih (some e) htail]
      congr 1
      cases rest with
      | nil => simp [heng, failDetail, orDefaultStr]
      | cons b bs =>
        obtain ⟨a, ha⟩ := Option.isSome_iff_exists.mp
          (List.getLast?_isSome.mpr (List.cons_ne_nil b bs))
        simp [List.getLast?_cons_cons, ha]
    · cases found with
      | some p =>
        rw [heng] at hfmt
        rcases hfmt with h1 | ⟨e, h2⟩
        · exact absurd h1 (by simp)
        · exact absurd h2 (by simp)
      | none =>
        have hstep : downloadLoop engine (fmt :: rest) le =
            downloadLoop engine rest
              (some "Download completed but output file was not found.") := by
          rw [downloadLoop, heng]
        rw [hstep, ih (some "Download completed but output file was not found.") htail]
        congr 1
        cases rest with
        | nil => simp [heng, failDetail, orDefaultStr]
        | cons b bs =>
          obtain ⟨a, ha⟩ := Option.isSome_iff_exists.mp
            (List.getLast?_isSome.mpr (List.cons_ne_nil b bs))
          simp [List.getLast?_cons_cons, ha]

/-- C6: the download endpoint returns the artifact of the first attempt
whose engine invocation succeeds and whose artifact is found, every
earlier attempt having failed; and it raises an error only once every
selector of the plan has been attempted, carrying the diagnostic of the
last attempt, falling back to the generic message when that diagnostic
is falsy (an empty exception text; a `None` diagnostic would need an
empty plan, which cannot occur). -/
theorem spec_c6 : ∀ (engine : String → EngineResult) (req : DownloadReq),
    (∀ p, download_video engine req = .ok p →
      ∃ pre fmt post, build_format_attempts req = pre ++ fmt :: post ∧
        engine fmt = .ok (some p) ∧ ∀ g ∈ pre, attemptFailed (engine g)) ∧
    ((∀ a ∈ build_format_attempts req, attemptFailed (engine a)) →
      ∃ lastS, (build_format_attempts req).getLast? = some lastS ∧
        download_video engine req = .error (500,
          pyOrStr (failDetail (engine lastS))
            "Download failed after all fallback attempts.")) := by
  intro engine req
  constructor
  · intro p h
    exact downloadLoop_ok engine _ _ _ h
  · intro hall
    have hne : build_format_attempts req ≠ [] := List.ne_nil_of_mem (bfa_best_mem req)
    obtain ⟨lastS, hlast⟩ :=
      Option.isSome_iff_exists.mp (List.getLast?_isSome.mpr hne)
    refine ⟨lastS, hlast, ?_⟩
    have hex := downloadLoop_exhausted engine (build_format_attempts req) none hall
    rw [hlast] at hex
    exact hex

/-- Witness for C6: with an engine that raises on every selector, the
endpoint fails with 500 and the last attempt's diagnostic. -/
theorem spec_c6_witness :
    ∃ lastS, (build_format_attempts ⟨"u", "137", "720p", "video"⟩).getLast? = some lastS ∧
      download_video (fun _ => EngineResult.err "boom") ⟨"u", "137", "720p", "video"⟩ =
        .error (500, pyOrStr (failDetail ((fun _ => EngineResult.err "boom") lastS))
          "Download failed after all fallback attempts.") :=
  (spec_c6 (fun _ => EngineResult.err "boom") ⟨"u", "137", "720p", "video"⟩).2
    (fun _ _ => Or.inr ⟨"boom", rfl⟩)

lemma mem_insMt (c x : DirEntry) : ∀ l : List DirEntry, x ∈ insMt c l ↔ x = c ∨ x ∈ l := by
  intro l
  induction l with
  | nil => simp [insMt]
  | cons d ds ih =>
    by_cases hcd : c.mtime ≥ d.mtime
    · simp [insMt, hcd]
    · simp only [insMt, if_neg hcd, List.mem_cons, ih]
      tauto

lemma pairwise_insMt (c : DirEntry) : ∀ l : List DirEntry,
    l.Pairwise (fun a b => b.mtime ≤ a.mtime) →
    (insMt c l).Pairwise (fun a b => b.mtime ≤ a.mtime) := by
  intro l
  induction l with
  | nil => intro _; simp [insMt]
  | cons d ds ih =>
    intro hp
    rcases List.pairwise_cons.mp hp with ⟨hd, hds⟩
    by_cases hcd : c.mtime ≥ d.mtime
    · rw [insMt, if_pos hcd]
      refine List.pairwise_cons.mpr ⟨?_, hp⟩
      intro y hy
      rcases List.mem_cons.mp hy with rfl | hy2
      · exact hcd
      · exact le_trans (hd y hy2) hcd
    · rw [insMt, if_neg hcd]
      refine List.pairwise_cons.mpr ⟨?_, ih hds⟩
      intro y hy
      rcases (mem_insMt c y ds).mp hy with rfl | hy2
      · exact le_of_not_ge hcd
      · exact hd y hy2

lemma pairwise_sortMt : ∀ l : List DirEntry,
    (sortMt l).Pairwise (fun a b => b.mtime ≤ a.mtime) := by
  intro l
  induction l with
  | nil => simp [sortMt]
  | cons d ds ih => exact pairwise_insMt d (sortMt ds) ih

lemma mem_sortMt (x : DirEntry) : ∀ l : List DirEntry, x ∈ sortMt l ↔ x ∈ l := by
  intro l
  induction l with
  | nil => simp [sortMt]
  | cons d ds ih =>
    show x ∈ insMt d (sortMt ds) ↔ _
    rw [mem_insMt, ih]
    simp [eq_comm]

lemma sortMt_eq_nil : ∀ l : List DirEntry, sortMt l = [] ↔ l = [] := by
  intro l
  cases l with
  | nil => simp [sortMt]
  | cons d ds =>
    simp only [sortMt, List.foldr_cons]
    constructor
    · intro h
      exfalso
      have : d ∈ insMt d (List.foldr insMt [] ds) := (mem_insMt d d _).mpr (Or.inl rfl)
      rw [h] at this
      exact absurd this (List.not_mem_nil d)
    · intro h
      exact absurd h (List.cons_ne_nil d ds)

lemma fileCand_suffixes (uid : String) (e : DirEntry) (h : fileCand uid e = true) :
    hasSuffixStr e.name ".part" = false ∧ hasSuffixStr e.name ".ytdl" = false ∧
      hasSuffixStr e.name ".tmp" = false ∧ startsWithStr e.name uid = true ∧
      e.isFile = true := by
  simp only [fileCand, Bool.and_eq_true, Bool.not_eq_true'] at h
  exact ⟨h.1.1.1.2, h.1.1.2, h.1.2, h.1.1.1.1, h.2⟩

/-- C7: the artifact locator returns absent exactly when no listing entry
qualifies (uid name prefix, no partial/temporary suffix, regular file);
and when it returns a path, that path is the name of a qualifying entry,
carries none of the partial suffixes, and its entry is at least as
recently modified as every qualifying entry. -/
theorem spec_c7 : ∀ (uid : String) (listing : List DirEntry),
    (find_downloaded_file uid listing = none ↔ ∀ e ∈ listing, fileCand uid e = false) ∧
    ∀ p, find_downloaded_file uid listing = some p →
      ∃ e ∈ listing, fileCand uid e = true ∧ p = e.name ∧
        hasSuffixStr p ".part" = false ∧ hasSuffixStr p ".ytdl" = false ∧
        hasSuffixStr p ".tmp" = false ∧
        ∀ d ∈ listing, fileCand uid d = true → d.mtime ≤ e.mtime := by
  intro uid listing
  cases hs : sortMt (listing.filter (fileCand uid)) with
  | nil =>
    have hfil : listing.filter (fileCand uid) = [] := (sortMt_eq_nil _).mp hs
    constructor
    · simp only [find_downloaded_file, hs]
      constructor
      · intro _ e he
        by_contra hc
        have : e ∈ listing.filter (fileCand uid) :=
          List.mem_filter.mpr ⟨he, by revert hc; cases fileCand uid e <;> simp⟩
        rw [hfil] at this
        exact absurd this (List.not_mem_nil e)
      · intro _
        trivial
    · intro p hp
      rw [find_downloaded_file, hs] at hp
      exact absurd hp (by simp)
  | cons c rest =>
    have hc_mem : c ∈ sortMt (listing.filter (fileCand uid)) := by
      rw [hs]; exact List.mem_cons_self c rest
    have hc_fil : c ∈ listing.filter (fileCand uid) := (mem_sortMt c _).mp hc_mem
    have hc_listing : c ∈ listing := (List.mem_filter.mp hc_fil).1
    have hc_cand : fileCand uid c = true := (List.mem_filter.mp hc_fil).2
    have hmax : ∀ d ∈ listing, fileCand uid d = true → d.mtime ≤ c.mtime := by
      intro d hd hdc
      have hd_fil : d ∈ listing.filter (fileCand uid) := List.mem_filter.mpr ⟨hd, hdc⟩
      have hd_sort : d ∈ sortMt (listing.filter (fileCand uid)) := (mem_sortMt d _).mpr hd_fil
      rw [hs] at hd_sort
      rcases List.mem_cons.mp hd_sort with rfl | hd_rest
      · exact le_refl _
      · have hp := pairwise_sortMt (listing.filter (fileCand uid))
        rw [hs] at hp
        exact (List.pairwise_cons.mp hp).1 d hd_rest
    constructor
    · constructor
      · intro h
        rw [find_downloaded_file, hs] at h
        exact absurd h (by simp)
      · intro hall
        exact absurd (hall c hc_listing) (by rw [hc_cand]; simp)
    · intro p hp
      rw [find_downloaded_file, hs] at hp
      have hpc : p = c.name := by simpa using hp.symm
      obtain ⟨h1, h2, h3, _, _⟩ := fileCand_suffixes uid c hc_cand
      exact ⟨c, hc_listing, hc_cand, hpc, hpc ▸ h1, hpc ▸ h2, hpc ▸ h3, hmax⟩

/-- Witness for C7: a one-entry listing with a qualifying name yields
that entry with all the stated facts. -/
theorem spec_c7_witness :
    ∃ e ∈ [DirEntry.mk "ab1.mp4" true 5], fileCand "ab" e = true ∧ "ab1.mp4" = e.name ∧
      hasSuffixStr "ab1.mp4" ".part" = false ∧ hasSuffixStr "ab1.mp4" ".ytdl" = false ∧
      hasSuffixStr "ab1.mp4" ".tmp" = false ∧
      ∀ d ∈ [DirEntry.mk "ab1.mp4" true 5], fileCand "ab" d = true → d.mtime ≤ e.mtime :=
  (spec_c7 "ab" [DirEntry.mk "ab1.mp4" true 5]).2 "ab1.mp4" (by decide)

lemma basenameStr_no_slash (s : String) : '/' ∉ (basenameStr s).data := by
  intro h
  simp only [basenameStr] at h
  rw [List.mem_reverse] at h
  have := List.mem_takeWhile_imp h
  simp at this

lemma basenameStr_of_no_slash (s : String) (h : '/' ∉ s.data) : basenameStr s = s := by
  have hall : ∀ c ∈ s.data.reverse, c ≠ '/' := by
    intro c hc hcs
    exact h (hcs ▸ List.mem_reverse.mp hc)
  simp only [basenameStr]
  rw [List.takeWhile_eq_self_iff.mpr (fun c hc => by simpa using hall c hc),
    List.reverse_reverse]

/-- C8 (counterexample): the claim fails on the single-segment traversal
name; the bare name dot-dot contains a traversal segment, yet the
endpoint does not reject it and resolves it against the parent of the
download directory. -/
theorem spec_c8_counterexample :
    hasTraversalSeg ".." = true ∧
    serve_file "downloads" ".." (fun _ => true) = .file "downloads/.." := by decide

/-- C8 (amended): every requested filename containing a path separator —
in particular every multi-segment traversal path such as
../../etc/passwd — is rejected with a bad-request error and never served;
a served path is always the download directory joined with the
slash-free requested name; and a slash-free name whose joined path does
not exist yields a 404.  The single-segment name dot-dot passes the
basename check and escapes the directory. -/
theorem spec_c8_amended : ∀ (dir name : String) (existsAt : String → Bool),
    ('/' ∈ name.data → serve_file dir name existsAt = .badRequest) ∧
    (∀ p, serve_file dir name existsAt = .file p → '/' ∉ name.data ∧ p = pathJoin dir name) ∧
    ('/' ∉ name.data → existsAt (pathJoin dir name) = false →
      serve_file dir name existsAt = .notFound) := by
  intro dir name existsAt
  refine ⟨?_, ?_, ?_⟩
  · intro hslash
    have hne : basenameStr name ≠ name := by
      intro he
      rw [← he] at hslash
      exact basenameStr_no_slash name hslash
    rw [serve_file, if_pos hne]
  · intro p hp
    by_cases hne : basenameStr name ≠ name
    · rw [serve_file, if_pos hne] at hp
      exact absurd hp (by simp)
    · push_neg at hne
      have hns : '/' ∉ name.data := by
        intro hc
        rw [← hne] at hc
        exact basenameStr_no_slash name hc
      rw [serve_file, if_neg (by rw [hne]; exact fun h => h rfl)] at hp
      by_cases hex : existsAt (pathJoin dir (basenameStr name)) = true
      · rw [if_neg (by rw [hex]; simp)] at hp
        have : p = pathJoin dir (basenameStr name) := by simpa using hp.symm
        exact ⟨hns, by rw [this, hne]⟩
      · rw [if_pos (by revert hex; cases existsAt (pathJoin dir (basenameStr name)) <;> simp)] at hp
        exact absurd hp (by simp)
  · intro hns hex
    have heq : basenameStr name = name := basenameStr_of_no_slash name hns
    rw [serve_file, if_neg (by rw [heq]; exact fun h => h rfl), heq,
      if_pos (by rw [hex]; simp)]

/-- Witness for C8 (amended): a well-formed name with no file present
yields a 404. -/
theorem spec_c8_witness :
    serve_file "downloads" "a.mp4" (fun _ => false) = .notFound :=
  (spec_c8_amended "downloads" "a.mp4" (fun _ => false)).2.2 (by decide) rfl

lemma append_ne_best (r s : String) (hs : 4 < s.data.length) : r ++ s ≠ "best" := by
  intro h
  have hd : r.data ++ s.data = ("best" : String).data := congrArg String.data h
  have hlen := congrArg List.length hd
  rw [List.length_append] at hlen
  have h4 : ("best" : String).data.length = 4 := rfl
  omega

lemma bfa_eq (req : DownloadReq) :
    build_format_attempts req =
      if lowerStr req.format_type = "audio" then
        unique_keep_order ((if pyStrip req.format_id ≠ "" then [pyStrip req.format_id] else []) ++
          ["bestaudio[ext=m4a]/bestaudio/best", "bestaudio/best", "best"])
      else
        unique_keep_order
          ((if pyStrip req.format_id ≠ "" ∧ pyStrip req.format_id ∉ GENERIC_SELECTORS then
              [pyStrip req.format_id ++ "+bestaudio/best", pyStrip req.format_id ++ "/best"]
            else if pyStrip req.format_id ≠ "" then [pyStrip req.format_id]
            else []) ++
           ["bestvideo[ext=mp4]+bestaudio[ext=m4a]/best[ext=mp4]/best",
            "bestvideo*+bestaudio/best", "best[ext=mp4]/best", "best"]) := rfl

lemma uko_getLast_best (front : List String) (hfront : "best" ∉ front) :
    ∃ lastS, (unique_keep_order (front ++ ["best"])).getLast? = some lastS ∧
      uncondGeneric lastS = true := by
  refine ⟨"best", ?_, by decide⟩
  rw [unique_keep_order, ukoGo_append_single "best" front [] (by simp) hfront]
  exact List.getLast?_concat _

/-- C5: selector planning is deterministic, returns a non-empty duplicate
free sequence, always contains the generic selector best, and always ends
in an unconditional generic selector (bare best or a compound whose final
fallback alternative is bare best). -/
theorem spec_c5 : ∀ req : DownloadReq,
    build_format_attempts req = build_format_attempts req ∧
    build_format_attempts req ≠ [] ∧
    (build_format_attempts req).Nodup ∧
    "best" ∈ build_format_attempts req ∧
    ∃ lastS, (build_format_attempts req).getLast? = some lastS ∧
      uncondGeneric lastS = true := by
  intro req
  have hbest := bfa_best_mem req
  refine ⟨rfl, List.ne_nil_of_mem hbest, ?_, hbest, ?_⟩
  · rw [bfa_eq]
    split_ifs <;> (simp only [unique_keep_order]; exact nodup_ukoGo _ _)
  · rw [bfa_eq]
    set r := pyStrip req.format_id with hr
    by_cases haud : lowerStr req.format_type = "audio"
    · rw [if_pos haud]
      by_cases hrb : r = "best"
      · rw [hrb]
        exact ⟨"bestaudio/best", by decide, by decide⟩
      · rw [show ["bestaudio[ext=m4a]/bestaudio/best", "bestaudio/best", "best"] =
            ["bestaudio[ext=m4a]/bestaudio/best", "bestaudio/best"] ++ ["best"] from rfl,
          ← List.append_assoc]
        refine uko_getLast_best _ ?_
        intro hc
        rcases List.mem_append.mp hc with h1 | h2
        · by_cases hr0 : r ≠ ""
          · rw [if_pos hr0] at h1
            exact hrb ((List.mem_singleton.mp h1).symm)
          · rw [if_neg hr0] at h1
            exact absurd h1 (List.not_mem_nil _)
        · rcases List.mem_cons.mp h2 with h3 | h3
          · exact absurd h3 (by decide)
          · exact absurd h3 (by simp)
    · rw [if_neg haud]
      by_cases hr0 : r = ""
      · rw [if_neg (by simp [hr0]), if_neg (by simp [hr0])]
        rw [show ["bestvideo[ext=mp4]+bestaudio[ext=m4a]/best[ext=mp4]/best",
            "bestvideo*+bestaudio/best", "best[ext=mp4]/best", "best"] =
            ["bestvideo[ext=mp4]+bestaudio[ext=m4a]/best[ext=mp4]/best",
             "bestvideo*+bestaudio/best", "best[ext=mp4]/best"] ++ ["best"] from rfl]
        refine uko_getLast_best _ ?_
        decide
      · by_cases hrb : r = "best"
        · rw [hrb] at hr0 ⊢
          rw [if_neg (by simp [GENERIC_SELECTORS]), if_pos (by simp)]
          exact ⟨"best[ext=mp4]/best", by decide, by decide⟩
        · have hsplit : ∀ part1 : List String,
              part1 ++ ["bestvideo[ext=mp4]+bestaudio[ext=m4a]/best[ext=mp4]/best",
                "bestvideo*+bestaudio/best", "best[ext=mp4]/best", "best"] =
              (part1 ++ ["bestvideo[ext=mp4]+bestaudio[ext=m4a]/best[ext=mp4]/best",
                "bestvideo*+bestaudio/best", "best[ext=mp4]/best"]) ++ ["best"] := by
            intro part1
            exact (List.append_assoc part1
              ["bestvideo[ext=mp4]+bestaudio[ext=m4a]/best[ext=mp4]/best",
               "bestvideo*+bestaudio/best", "best[ext=mp4]/best"] ["best"]).symm
          have hgen3 : "best" ∉
              ["bestvideo[ext=mp4]+bestaudio[ext=m4a]/best[ext=mp4]/best",
               "bestvideo*+bestaudio/best", "best[ext=mp4]/best"] := by decide
          by_cases hgen : r ∈ GENERIC_SELECTORS
          · rw [if_neg (by simp [hgen]), if_pos hr0, hsplit]
            refine uko_getLast_best _ ?_
            intro hc
            rcases List.mem_append.mp hc with h1 | h2
            · exact hrb ((List.mem_singleton.mp h1).symm)
            · exact hgen3 h2
          · rw [if_pos ⟨hr0, hgen⟩, hsplit]
            refine uko_getLast_best _ ?_
            intro hc
            rcases List.mem_append.mp hc with h1 | h2
            · rcases List.mem_cons.mp h1 with h3 | h3
              · exact append_ne_best r "+bestaudio/best" (by decide) h3.symm
              · rw [List.mem_singleton] at h3
                exact append_ne_best r "/best" (by decide) h3.symm
            · exact hgen3 h2

lemma scanFormats_append (l : List Fmt) (f : Fmt) :
    scanFormats (l ++ [f]) = scanStep (scanFormats l) f := by
  simp [scanFormats, List.foldl_append]

lemma lookupA_updateBest_self (m : List (Int × Fmt)) (h : Int) (f : Fmt) :
    lookupA (updateBest m h f) h =
      some (match lookupA m h with
        | none => f
        | some g => if format_score f > format_score g then f else g) := by
  induction m with
  | nil => simp [updateBest, lookupA]
  | cons kg rest ih =>
    obtain ⟨k, g⟩ := kg
    by_cases hk : k = h
    · subst hk
      by_cases hsc : format_score f > format_score g
      · simp [updateBest, lookupA, hsc]
      · simp [updateBest, lookupA, hsc]
    · simp [updateBest, lookupA, hk, ih]

lemma lookupA_updateBest_ne (m : List (Int × Fmt)) (h k : Int) (f : Fmt) (hk : k ≠ h) :
    lookupA (updateBest m h f) k = lookupA m k := by
  induction m with
  | nil => simp [updateBest, lookupA, Ne.symm hk]
  | cons kg rest ih =>
    obtain ⟨k0, g⟩ := kg
    by_cases hk0 : k0 = h
    · subst hk0
      by_cases hsc : format_score f > format_score g <;>
        simp [updateBest, lookupA, hsc, Ne.symm hk]
    · simp [updateBest, lookupA, hk0, ih]

lemma lookupA_eq_none_iff (m : List (Int × Fmt)) (h : Int) :
    lookupA m h = none ↔ h ∉ m.map Prod.fst := by
  induction m with
  | nil => simp [lookupA]
  | cons kg rest ih =>
    obtain ⟨k, g⟩ := kg
    by_cases hk : k = h
    · subst hk
      simp [lookupA]
    · simp [lookupA, hk, ih, Ne.symm hk]

lemma keys_updateBest (m : List (Int × Fmt)) (h : Int) (f : Fmt) :
    (updateBest m h f).map Prod.fst =
      if (lookupA m h).isSome then m.map Prod.fst else m.map Prod.fst ++ [h] := by
  induction m with
  | nil => simp [updateBest, lookupA]
  | cons kg rest ih =>
    obtain ⟨k, g⟩ := kg
    by_cases hk : k = h
    · subst hk
      by_cases hsc : format_score f > format_score g <;>
        simp [updateBest, lookupA, hsc]
    · simp only [updateBest, if_neg hk, List.map_cons, lookupA, ih]
      by_cases hsome : (lookupA rest h).isSome <;> simp [hk, hsome]

lemma heightKey_bounds (f : Fmt) (h : Int) (hk : heightKey f = some h) :
    h ≠ 0 ∧ 144 ≤ h := by
  unfold heightKey at hk
  cases hp : parse_height f with
  | none => rw [hp] at hk; simp at hk
  | some h0 =>
    rw [hp] at hk
    have hk2 : (if h0 ≠ 0 ∧ 144 ≤ h0 then some h0 else none) = some h := hk
    by_cases hc : h0 ≠ 0 ∧ 144 ≤ h0
    · rw [if_pos hc] at hk2
      cases hk2
      exact hc
    · rw [if_neg hc] at hk2
      simp at hk2

lemma grpK_append (l : List Fmt) (f : Fmt) (h : Int) :
    grpK (l ++ [f]) h = grpK l h ++
      (if usableId f && !(orNoneLower f.vcodec == "none") && (heightKey f == some h)
        then [f] else []) := by
  simp only [grpK, List.filter_append, List.filter_cons, List.filter_nil]

lemma scanStep_fst (acc : List (Int × Fmt) × List Fmt) (f : Fmt) :
    (scanStep acc f).1 =
      if usableId f ∧ orNoneLower f.vcodec ≠ "none" then
        match heightKey f with
        | some h => updateBest acc.1 h f
        | none => acc.1
      else acc.1 := by
  by_cases hu : usableId f
  · by_cases hvc : orNoneLower f.vcodec ≠ "none" <;> simp [scanStep, hu, hvc]
  · simp [scanStep, hu]

lemma candCond_true (f : Fmt) (h : Int) (hu : usableId f = true)
    (hv : orNoneLower f.vcodec ≠ "none") (hhk : heightKey f = some h) :
    (usableId f && !(orNoneLower f.vcodec == "none") && (heightKey f == some h)) = true := by
  rw [hu, beq_eq_false_iff_ne.mpr hv, hhk]
  simp

lemma candCond_false_of_key (f : Fmt) (h : Int) (hne : heightKey f ≠ some h) :
    (usableId f && !(orNoneLower f.vcodec == "none") && (heightKey f == some h)) = false := by
  rw [beq_eq_false_iff_ne.mpr hne]
  simp

lemma candCond_false_of_not (f : Fmt) (h : Int)
    (hu : ¬(usableId f = true ∧ orNoneLower f.vcodec ≠ "none")) :
    (usableId f && !(orNoneLower f.vcodec == "none") && (heightKey f == some h)) = false := by
  rcases not_and_or.mp hu with hu1 | hu2
  · have h1 : usableId f = false := by
      revert hu1
      cases usableId f <;> simp
    rw [h1]
    simp
  · have h2 : orNoneLower f.vcodec = "none" := not_not.mp hu2
    rw [h2]
    simp

lemma lookup_scan_none (l : List Fmt) (h : Int) :
    lookupA (scanFormats l).1 h = none ↔ grpK l h = [] := by
  induction l using List.reverseRecOn with
  | nil => simp [scanFormats, grpK, lookupA]
  | append_singleton l f ih =>
    rw [scanFormats_append, scanStep_fst, grpK_append]
    by_cases hu : usableId f ∧ orNoneLower f.vcodec ≠ "none"
    · rw [if_pos hu]
      cases hhk : heightKey f with
      | none =>
        have hcond : ((none : Option Int) == some h) = false := rfl
        simp only [hcond, Bool.and_false, Bool.false_eq_true, if_false, List.append_nil]
        exact ih
      | some h0 =>
        have hstep : (match some h0 with
            | some hh => updateBest (scanFormats l).1 hh f
            | none => (scanFormats l).1) = updateBest (scanFormats l).1 h0 f := rfl
        rw [hstep]
        by_cases hh : h0 = h
        · subst hh
          have hcond : ((some h0 : Option Int) == some h0) = true := beq_self_eq_true _
          simp only [hcond, Bool.and_true]
          rw [lookupA_updateBest_self]
          have htrue : (usableId f && !(orNoneLower f.vcodec == "none")) = true := by
            rw [hu.1, beq_eq_false_iff_ne.mpr hu.2]
            rfl
          simp [htrue]
        · have hcond : ((some h0 : Option Int) == some h) = false :=
            beq_eq_false_iff_ne.mpr (by simp [hh])
          simp only [hcond, Bool.and_false, Bool.false_eq_true, if_false, List.append_nil]
          rw [lookupA_updateBest_ne _ _ _ _ (fun he => hh he.symm)]
          exact ih
    · rw [if_neg hu, candCond_false_of_not f h hu]
      simp only [Bool.false_eq_true, if_false, List.append_nil]
      exact ih

lemma lookup_scan_some (l : List Fmt) (h : Int) :
    ∀ c : Fmt, lookupA (scanFormats l).1 h = some c →
      (∃ pre post, grpK l h = pre ++ c :: post ∧
        ∀ g ∈ pre, format_score g < format_score c) ∧
      ∀ g ∈ grpK l h, format_score g ≤ format_score c := by
  induction l using List.reverseRecOn with
  | nil =>
    intro c hl
    simp [scanFormats, lookupA] at hl
  | append_singleton l f ih =>
    intro c hl
    rw [scanFormats_append, scanStep_fst] at hl
    rw [grpK_append]
    by_cases hu : usableId f ∧ orNoneLower f.vcodec ≠ "none"
    · rw [if_pos hu] at hl
      cases hhk : heightKey f with
      | none =>
        rw [hhk] at hl
        have hl2 : lookupA (scanFormats l).1 h = some c := hl
        have hcond : ((none : Option Int) == some h) = false := rfl
        simp only [hcond, Bool.and_false, Bool.false_eq_true, if_false, List.append_nil]
        exact ih c hl2
      | some h0 =>
        rw [hhk] at hl
        by_cases hh : h0 = h
        · subst hh
          have hl2 : lookupA (updateBest (scanFormats l).1 h0 f) h0 = some c := hl
          rw [lookupA_updateBest_self] at hl2
          have hcond : ((some h0 : Option Int) == some h0) = true := beq_self_eq_true _
          have htrue : (usableId f && !(orNoneLower f.vcodec == "none")) = true := by
            rw [hu.1, beq_eq_false_iff_ne.mpr hu.2]
            rfl
          simp only [hcond, Bool.and_true, htrue, if_true]
          cases hprev : lookupA (scanFormats l).1 h0 with
          | none =>
            rw [hprev] at hl2
            have hcf : c = f := by simpa using hl2.symm
            subst hcf
            rw [(lookup_scan_none l h0).mp hprev]
            refine ⟨⟨[], [], rfl, by simp⟩, ?_⟩
            intro g hg
            rcases List.mem_singleton.mp (by simpa using hg) with rfl
            exact le_refl _
          | some prev =>
            rw [hprev] at hl2
            have hl3 : some (if format_score f > format_score prev then f else prev) =
                some c := hl2
            obtain ⟨⟨pre, post, hsplit, hpre⟩, hmax⟩ := ih prev hprev
            by_cases hsc : format_score f > format_score prev
            · rw [if_pos hsc] at hl3
              have hcf : c = f := by simpa using hl3.symm
              subst hcf
              refine ⟨⟨grpK l h0, [], rfl, fun g hg => lt_of_le_of_lt (hmax g hg) hsc⟩, ?_⟩
              intro g hg
              rcases List.mem_append.mp hg with h1 | h2
              · exact le_of_lt (lt_of_le_of_lt (hmax g h1) hsc)
              · rcases List.mem_singleton.mp h2 with rfl
                exact le_refl _
            · rw [if_neg hsc] at hl3
              have hcf : c = prev := by simpa using hl3.symm
              subst hcf
              refine ⟨⟨pre, post ++ [f], ?_, hpre⟩, ?_⟩
              · rw [hsplit]
                simp
              · intro g hg
                rcases List.mem_append.mp hg with h1 | h2
                · exact hmax g h1
                · rcases List.mem_singleton.mp h2 with rfl
                  exact le_of_not_lt hsc
        · have hne : h ≠ h0 := fun he => hh he.symm
          have hl2 : lookupA (scanFormats l).1 h = some c := by
            rw [← lookupA_updateBest_ne (scanFormats l).1 h0 h f hne]
            exact hl
          have hcond : ((some h0 : Option Int) == some h) = false :=
            beq_eq_false_iff_ne.mpr (by simp [hh])
          simp only [hcond, Bool.and_false, Bool.false_eq_true, if_false, List.append_nil]
          exact ih c hl2
    · rw [if_neg hu] at hl
      rw [candCond_false_of_not f h hu]
      simp only [Bool.false_eq_true, if_false, List.append_nil]
      exact ih c hl

/-- C10: the best-by-height comparison is strict: appending a format that
scores no higher than (in particular, exactly equal to) the currently
chosen entry for its height leaves the chosen entry unchanged, so a later
equal-scoring format never replaces an earlier one. -/
theorem spec_c10 : ∀ (l : List Fmt) (g : Fmt) (h : Int) (prev : Fmt),
    lookupA (scanFormats l).1 h = some prev →
    format_score g ≤ format_score prev →
    lookupA (scanFormats (l ++ [g])).1 h = some prev := by
  intro l g h prev hprev hle
  rw [scanFormats_append, scanStep_fst]
  by_cases hu : usableId g ∧ orNoneLower g.vcodec ≠ "none"
  · rw [if_pos hu]
    cases hhk : heightKey g with
    | none => exact hprev
    | some h0 =>
      have hstep : (match some h0 with
          | some hh => updateBest (scanFormats l).1 hh g
          | none => (scanFormats l).1) = updateBest (scanFormats l).1 h0 g := rfl
      rw [hstep]
      by_cases hh : h0 = h
      · subst hh
        rw [lookupA_updateBest_self, hprev]
        show some (if format_score g > format_score prev then g else prev) = some prev
        rw [if_neg (not_lt.mpr hle)]
      · rw [lookupA_updateBest_ne _ _ _ _ (fun he => hh he.symm)]
        exact hprev
  · rw [if_neg hu]
    exact hprev

/-- Witness for C10: two 1080-height formats with equal scores; the first
one stays chosen after the second is scanned. -/
theorem spec_c10_witness :
    lookupA (scanFormats
      [{ format_id := some "137", height := some 1080, vcodec := some "avc1" },
       { format_id := some "248", height := some 1080, vcodec := some "vp9" }]).1 1080 =
      some { format_id := some "137", height := some 1080, vcodec := some "avc1" } := by
  have hA : format_score { format_id := some "137", height := some 1080, vcodec := some "avc1" } = 1000 := by
    simp +decide only [format_score, qOr0]
    norm_num
  have hB : format_score { format_id := some "248", height := some 1080, vcodec := some "vp9" } = 1000 := by
    simp +decide only [format_score, qOr0]
    norm_num
  exact spec_c10
    [{ format_id := some "137", height := some 1080, vcodec := some "avc1" }]
    { format_id := some "248", height := some 1080, vcodec := some "vp9" }
    1080
    { format_id := some "137", height := some 1080, vcodec := some "avc1" }
    (by decide) (le_of_eq (hB.trans hA.symm))

lemma d2n_digitCh (n : Nat) (h : n < 10) : d2n (digitCh n) = n := by
  interval_cases n <;> rfl

lemma digitsToNat_append (l : List Char) (c : Char) :
    digitsToNat (l ++ [c]) = 10 * digitsToNat l + d2n c := by
  simp [digitsToNat, List.foldl_append]

lemma digitsToNat_decGo : ∀ (fuel n : Nat), n < fuel → digitsToNat (decGo fuel n) = n := by
  intro fuel
  induction fuel with
  | zero =>
    intro n h
    omega
  | succ f ih =>
    intro n h
    rw [decGo]
    by_cases h10 : n < 10
    · rw [if_pos h10]
      simp [digitsToNat, d2n_digitCh n h10]
    · rw [if_neg h10, digitsToNat_append, ih (n / 10) (by omega)]
      rw [d2n_digitCh (n % 10) (Nat.mod_lt n (by norm_num))]
      omega

lemma decChars_inj (m n : Nat) (h : decChars m = decChars n) : m = n := by
  have hm := digitsToNat_decGo (m + 1) m (Nat.lt_succ_self m)
  have hn := digitsToNat_decGo (n + 1) n (Nat.lt_succ_self n)
  unfold decChars at h
  rw [h] at hm
  rw [hm] at hn
  exact hn

lemma labelOfInt_inj (a b : Int) (ha : 0 < a) (hb : 0 < b)
    (h : labelOfInt a = labelOfInt b) : a = b := by
  unfold labelOfInt intDec at h
  rw [if_neg (by omega), if_neg (by omega)] at h
  have hd : decChars a.toNat ++ "p".data = decChars b.toNat ++ "p".data :=
    congrArg String.data h
  have hd2 := List.append_cancel_right hd
  have := decChars_inj _ _ hd2
  omega

lemma append_p_ne (s t : String) (ht : t.data.getLast? ≠ some 'p') : s ++ "p" ≠ t := by
  intro he
  have hd : s.data ++ ['p'] = t.data := congrArg String.data he
  refine ht ?_
  rw [← hd]
  exact List.getLast?_concat _

lemma labelOfInt_ne_BA (h : Int) : labelOfInt h ≠ "Best Available" :=
  append_p_ne (intDec h) "Best Available" (by decide)

lemma labelOfInt_ne_AO (h : Int) : labelOfInt h ≠ "Audio Only" :=
  append_p_ne (intDec h) "Audio Only" (by decide)

lemma insertDesc_perm (x : Int) : ∀ l : List Int, (insertDesc x l).Perm (x :: l) := by
  intro l
  induction l with
  | nil => simp [insertDesc]
  | cons y ys ih =>
    by_cases hxy : x ≥ y
    · rw [insertDesc, if_pos hxy]
    · rw [insertDesc, if_neg hxy]
      exact (ih.cons y).trans (List.Perm.swap x y ys)

lemma sortDesc_perm : ∀ l : List Int, (sortDesc l).Perm l := by
  intro l
  induction l with
  | nil => simp [sortDesc]
  | cons y ys ih =>
    exact (insertDesc_perm y (sortDesc ys)).trans (ih.cons y)

lemma pairwise_insertDesc (x : Int) : ∀ l : List Int,
    l.Pairwise (fun a b => a ≥ b) → (insertDesc x l).Pairwise (fun a b => a ≥ b) := by
  intro l
  induction l with
  | nil => intro _; simp [insertDesc]
  | cons y ys ih =>
    intro hp
    rcases List.pairwise_cons.mp hp with ⟨hy, hys⟩
    by_cases hxy : x ≥ y
    · rw [insertDesc, if_pos hxy]
      refine List.pairwise_cons.mpr ⟨?_, hp⟩
      intro z hz
      rcases List.mem_cons.mp hz with rfl | hz2
      · exact hxy
      · exact le_trans (hy z hz2) hxy
    · rw [insertDesc, if_neg hxy]
      refine List.pairwise_cons.mpr ⟨?_, ih hys⟩
      intro z hz
      have hmem := (insertDesc_perm x ys).mem_iff.mp hz
      rcases List.mem_cons.mp hmem with rfl | hz2
      · exact le_of_not_ge hxy
      · exact hy z hz2

lemma sortDesc_sorted : ∀ l : List Int, (sortDesc l).Pairwise (fun a b => a ≥ b) := by
  intro l
  induction l with
  | nil => simp [sortDesc]
  | cons y ys ih => exact pairwise_insertDesc y (sortDesc ys) ih

lemma sortDesc_gt (l : List Int) (hnd : l.Nodup) :
    (sortDesc l).Pairwise (fun a b => a > b) := by
  have hnd2 : (sortDesc l).Nodup := (sortDesc_perm l).nodup_iff.mpr hnd
  have hs := sortDesc_sorted l
  have hand := List.Pairwise.and hs hnd2
  exact hand.imp (fun h => lt_of_le_of_ne h.1 (Ne.symm h.2))

lemma keys_nodup (l : List Fmt) : ((scanFormats l).1.map Prod.fst).Nodup := by
  induction l using List.reverseRecOn with
  | nil => simp [scanFormats]
  | append_singleton l f ih =>
    rw [scanFormats_append, scanStep_fst]
    by_cases hu : usableId f ∧ orNoneLower f.vcodec ≠ "none"
    · rw [if_pos hu]
      cases hhk : heightKey f with
      | none => exact ih
      | some h0 =>
        have hstep : (match some h0 with
            | some hh => updateBest (scanFormats l).1 hh f
            | none => (scanFormats l).1) = updateBest (scanFormats l).1 h0 f := rfl
        rw [hstep, keys_updateBest]
        by_cases hsome : (lookupA (scanFormats l).1 h0).isSome
        · rw [if_pos hsome]
          exact ih
        · rw [if_neg hsome]
          have hnone : lookupA (scanFormats l).1 h0 = none := by
            revert hsome
            cases lookupA (scanFormats l).1 h0 <;> simp
          have hnm : h0 ∉ (scanFormats l).1.map Prod.fst :=
            (lookupA_eq_none_iff _ _).mp hnone
          simp [List.nodup_append, ih, hnm]
    · rw [if_neg hu]
      exact ih

lemma keys_bounds (l : List Fmt) :
    ∀ k ∈ (scanFormats l).1.map Prod.fst, k ≠ 0 ∧ 144 ≤ k := by
  intro k hk
  have hln : lookupA (scanFormats l).1 k ≠ none := by
    intro hn
    exact ((lookupA_eq_none_iff _ _).mp hn) hk
  have hgrp : grpK l k ≠ [] := fun hg => hln ((lookup_scan_none l k).mpr hg)
  obtain ⟨f, hf⟩ := List.exists_mem_of_ne_nil (grpK l k) hgrp
  have hfc := (List.mem_filter.mp hf).2
  have hhk : heightKey f = some k := by
    simp only [Bool.and_eq_true, beq_iff_eq] at hfc
    exact hfc.2
  exact heightKey_bounds f k hhk

lemma keys_mem_iff (l : List Fmt) (h : Int) :
    h ∈ (scanFormats l).1.map Prod.fst ↔ grpK l h ≠ [] := by
  constructor
  · intro hk hg
    exact ((lookupA_eq_none_iff _ _).mp ((lookup_scan_none l h).mpr hg)) hk
  · intro hg
    by_contra hk
    have hnone : lookupA (scanFormats l).1 h = none := (lookupA_eq_none_iff _ _).mpr hk
    exact hg ((lookup_scan_none l h).mp hnone)

lemma dedupGo_sublist : ∀ (l : List Quality) (seen : List String),
    (dedupGo seen l).Sublist l := by
  intro l
  induction l with
  | nil => intro seen; simp [dedupGo]
  | cons q rest ih =>
    intro seen
    by_cases hq : q.label ∈ seen
    · rw [dedupGo, if_pos hq]
      exact (ih seen).cons q
    · rw [dedupGo, if_neg hq]
      exact (ih _).cons₂ q

lemma dedupGo_labels_nodup : ∀ (l : List Quality) (seen : List String),
    ((dedupGo seen l).map Quality.label).Nodup ∧
      ∀ q ∈ dedupGo seen l, q.label ∉ seen := by
  intro l
  induction l with
  | nil => intro seen; simp [dedupGo]
  | cons q rest ih =>
    intro seen
    by_cases hq : q.label ∈ seen
    · rw [dedupGo, if_pos hq]
      exact ih seen
    · rw [dedupGo, if_neg hq]
      refine ⟨?_, ?_⟩
      · simp only [List.map_cons, List.nodup_cons]
        refine ⟨fun hc => ?_, (ih _).1⟩
        obtain ⟨q2, hq2, hlab⟩ := List.mem_map.mp hc
        exact ((ih _).2 q2 hq2) (by rw [hlab]; exact List.mem_cons_self _ _)
      · intro q2 hq2
        rcases List.mem_cons.mp hq2 with rfl | h2
        · exact hq
        · have h3 := (ih _).2 q2 h2
          exact fun hc => h3 (List.mem_cons_of_mem _ hc)

lemma find?_label_cons_ne (k : String) (q : Quality) (rest : List Quality)
    (h : q.label ≠ k) :
    (q :: rest).find? (fun x => x.label == k) = rest.find? (fun x => x.label == k) :=
  List.find?_cons_of_neg rest (by simp [h])

lemma find?_label_cons_eq (k : String) (q : Quality) (rest : List Quality)
    (h : q.label = k) :
    (q :: rest).find? (fun x => x.label == k) = some q :=
  List.find?_cons_of_pos rest (by simp [h])

lemma dedupGo_filter (k : String) : ∀ (l : List Quality) (seen : List String),
    (dedupGo seen l).filter (fun q => q.label == k) =
      if k ∈ seen then [] else
        match l.find? (fun q => q.label == k) with
        | none => []
        | some q => [q] := by
  intro l
  induction l with
  | nil =>
    intro seen
    by_cases hk : k ∈ seen <;> simp [dedupGo, hk]
  | cons q rest ih =>
    intro seen
    by_cases hq : q.label ∈ seen
    · rw [dedupGo, if_pos hq, ih seen]
      by_cases hk : k ∈ seen
      · simp [hk]
      · have hne : q.label ≠ k := fun he => hk (he ▸ hq)
        rw [if_neg hk, if_neg hk, find?_label_cons_ne k q rest hne]
    · rw [dedupGo, if_neg hq, List.filter_cons]
      by_cases hqk : q.label = k
      · have hk : k ∉ seen := hqk ▸ hq
        have hbeq : (q.label == k) = true := beq_iff_eq.mpr hqk
        rw [if_pos (by rw [hbeq]), ih (q.label :: seen),
          if_pos (by rw [hqk]; exact List.mem_cons_self _ _),
          if_neg hk, find?_label_cons_eq k q rest hqk]
      · have hbeq : (q.label == k) = false := beq_eq_false_iff_ne.mpr hqk
        rw [if_neg (by rw [hbeq]; simp), ih (q.label :: seen),
          find?_label_cons_ne k q rest hqk]
        by_cases hk : k ∈ seen
        · rw [if_pos (List.mem_cons_of_mem _ hk), if_pos hk]
        · have hkq : k ∉ q.label :: seen := by
            intro hc
            rcases List.mem_cons.mp hc with h1 | h1
            · exact hqk h1.symm
            · exact hk h1
          rw [if_neg hkq, if_neg hk]

lemma audioQ_label (a : List Fmt) : (audioQ a).label = "Audio Only" := by
  cases a <;> rfl

lemma audioQ_shape (a : List Fmt) :
    audioQ a = ⟨"Audio Only", (audioQ a).format_id, "audio", 0⟩ := by
  cases a <;> rfl

lemma bq_unfold (formats : List Fmt) :
    build_qualities formats = dedupGo []
      ((sortDesc ((scanFormats formats).1.map Prod.fst)).map (ladderQ (scanFormats formats).1)
        ++ [bestAvailableQ] ++ [audioQ (scanFormats formats).2]) := rfl

lemma ladder_find_none (formats : List Fmt) (k : String)
    (hk : ∀ h : Int, h ≠ 0 → labelOfInt h ≠ k) :
    ((sortDesc ((scanFormats formats).1.map Prod.fst)).map
      (ladderQ (scanFormats formats).1)).find? (fun q => q.label == k) = none := by
  rw [List.find?_eq_none]
  intro x hx
  obtain ⟨h, hh, rfl⟩ := List.mem_map.mp hx
  have hmem : h ∈ (scanFormats formats).1.map Prod.fst := (sortDesc_perm _).mem_iff.mp hh
  have hb := keys_bounds formats h hmem
  simp only [ladderQ, beq_iff_eq]
  exact hk h hb.1

/-- C2: for every format list the ladder has pairwise-distinct labels,
its positive-height (height-labelled) video entries are in strictly
descending height order, and it contains exactly one fallback video entry
labelled Best Available and exactly one audio entry labelled Audio
Only. -/
theorem spec_c2 : ∀ formats : List Fmt,
    ((build_qualities formats).map Quality.label).Nodup ∧
    (((build_qualities formats).filter (fun q => decide (0 < q.height))).map
      Quality.height).Pairwise (fun a b => a > b) ∧
    (build_qualities formats).filter (fun q => q.label == "Best Available") =
      [bestAvailableQ] ∧
    ∃ fid, (build_qualities formats).filter (fun q => q.label == "Audio Only") =
      [⟨"Audio Only", fid, "audio", 0⟩] := by
  intro formats
  refine ⟨?_, ?_, ?_, ?_⟩
  · rw [bq_unfold]
    exact (dedupGo_labels_nodup _ []).1
  · have hkeysnd := keys_nodup formats
    have hsorted := sortDesc_gt _ hkeysnd
    have hladder_all : ∀ q ∈ (sortDesc ((scanFormats formats).1.map Prod.fst)).map
        (ladderQ (scanFormats formats).1), decide (0 < q.height) = true := by
      intro q hq
      obtain ⟨h, hh, rfl⟩ := List.mem_map.mp hq
      have hmem : h ∈ (scanFormats formats).1.map Prod.fst := (sortDesc_perm _).mem_iff.mp hh
      have hb := keys_bounds formats h hmem
      have hpos : (0 : Int) < h := by omega
      simpa [ladderQ] using hpos
    have hfilter_pre :
        (((sortDesc ((scanFormats formats).1.map Prod.fst)).map
            (ladderQ (scanFormats formats).1)
          ++ [bestAvailableQ] ++ [audioQ (scanFormats formats).2]).filter
            (fun q => decide (0 < q.height))) =
          (sortDesc ((scanFormats formats).1.map Prod.fst)).map
            (ladderQ (scanFormats formats).1) := by
      rw [List.filter_append, List.filter_append, List.filter_eq_self.mpr hladder_all]
      have h1 : [bestAvailableQ].filter (fun q => decide (0 < q.height)) = [] := rfl
      have h2 : [audioQ (scanFormats formats).2].filter
          (fun q => decide (0 < q.height)) = [] := by
        cases haud : (scanFormats formats).2 <;> rfl
      rw [h1, h2, List.append_nil, List.append_nil]
    have hsub := dedupGo_sublist
      ((sortDesc ((scanFormats formats).1.map Prod.fst)).map (ladderQ (scanFormats formats).1)
        ++ [bestAvailableQ] ++ [audioQ (scanFormats formats).2]) []
    rw [bq_unfold]
    have hsubf := List.Sublist.filter (fun q => decide (0 < q.height)) hsub
    rw [hfilter_pre] at hsubf
    have hmapsub := hsubf.map Quality.height
    have hmapladder : (((sortDesc ((scanFormats formats).1.map Prod.fst)).map
        (ladderQ (scanFormats formats).1)).map Quality.height) =
        sortDesc ((scanFormats formats).1.map Prod.fst) := by
      rw [List.map_map]
      simp [ladderQ, Function.comp_def]
    rw [hmapladder] at hmapsub
    exact hsorted.sublist hmapsub
  · rw [bq_unfold, dedupGo_filter, if_neg (List.not_mem_nil _),
      List.find?_append, List.find?_append,
      ladder_find_none formats "Best Available" (fun h _ => labelOfInt_ne_BA h),
      find?_label_cons_eq "Best Available" bestAvailableQ [] rfl]
    rfl
  · refine ⟨(audioQ (scanFormats formats).2).format_id, ?_⟩
    rw [bq_unfold, dedupGo_filter, if_neg (List.not_mem_nil _),
      List.find?_append, List.find?_append,
      ladder_find_none formats "Audio Only" (fun h _ => labelOfInt_ne_AO h),
      find?_label_cons_ne "Audio Only" bestAvailableQ [] (by decide),
      find?_label_cons_eq "Audio Only" (audioQ (scanFormats formats).2) []
        (audioQ_label _)]
    show [audioQ (scanFormats formats).2] = _
    rw [audioQ_shape]

lemma normGroup_eq_grpK (formats : List Fmt) (h : Int) (h144 : 144 ≤ h) :
    normGroup formats h = grpK formats h := by
  refine List.filter_congr ?_
  intro f _
  suffices hs : (parse_height f == some h) = (heightKey f == some h) by rw [hs]
  cases hp : parse_height f with
  | none =>
    have hnk : heightKey f = none := by rw [heightKey, hp]
    rw [hnk]
  | some h0 =>
    have hhk : heightKey f = if h0 ≠ 0 ∧ 144 ≤ h0 then some h0 else none := by
      rw [heightKey, hp]
    by_cases hh : h0 = h
    · subst hh
      rw [hhk, if_pos ⟨by omega, h144⟩]
    · rw [hhk]
      by_cases hcnd : h0 ≠ 0 ∧ 144 ≤ h0
      · rw [if_pos hcnd]
      · rw [if_neg hcnd]
        rw [beq_eq_false_iff_ne.mpr (by simp [hh] : some h0 ≠ some h)]
        rfl

lemma find_label_keys (m : List (Int × Fmt)) (h : Int) (hpos : 0 < h) :
    ∀ ks : List Int, (∀ k ∈ ks, k ≠ 0 ∧ 144 ≤ k) → h ∈ ks →
      (ks.map (ladderQ m)).find? (fun q => q.label == labelOfInt h) =
        some (ladderQ m h) := by
  intro ks
  induction ks with
  | nil =>
    intro _ hmem
    simp at hmem
  | cons k ks ih =>
    intro hall hmem
    by_cases hkh : k = h
    · subst hkh
      rw [List.map_cons,
        find?_label_cons_eq (labelOfInt k) (ladderQ m k) (List.map (ladderQ m) ks) rfl]
    · have hkb := hall k (List.mem_cons_self k ks)
      have hne : (ladderQ m k).label ≠ labelOfInt h := by
        intro he
        exact hkh (labelOfInt_inj k h (by omega) hpos he)
      rw [List.map_cons, find?_label_cons_ne _ _ _ hne,
        ih (fun k2 hk2 => hall k2 (List.mem_cons_of_mem _ hk2))
          (by rcases List.mem_cons.mp hmem with h1 | h1
              · exact absurd h1.symm hkh
              · exact h1)]

/-- C1 (counterexample): two video-capable entries that both normalize to
height 100 — below the minimum of 144 — produce no 100p QualityOption at
all, so the claim as stated (exactly one option for every shared
normalized height) is false. -/
theorem spec_c1_counterexample :
    2 ≤ (normGroup
      [{ format_id := some "a", height := some 100, vcodec := some "avc1" },
       { format_id := some "b", height := some 100, vcodec := some "avc1" }] 100).length ∧
    (build_qualities
      [{ format_id := some "a", height := some 100, vcodec := some "avc1" },
       { format_id := some "b", height := some 100, vcodec := some "avc1" }]).filter
        (fun q => q.label == labelOfInt 100) = [] := by decide

/-- C1 (amended): for every raw format list containing two or more
video-capable entries that normalize to the same height h with h at least
144, build_qualities emits exactly one QualityOption labelled hp, and its
format_id is that of the first maximal-format_score entry of the group:
every group member before the chosen one scores strictly less (so a later
equal-scoring entry is never the one emitted), and every group member
scores at most the chosen one. -/
theorem spec_c1_amended : ∀ (formats : List Fmt) (h : Int),
    144 ≤ h → 2 ≤ (normGroup formats h).length →
    ∃ chosen pre post,
      normGroup formats h = pre ++ chosen :: post ∧
      (∀ g ∈ pre, format_score g < format_score chosen) ∧
      (∀ g ∈ normGroup formats h, format_score g ≤ format_score chosen) ∧
      (build_qualities formats).filter (fun q => q.label == labelOfInt h) =
        [⟨labelOfInt h, strId chosen, "video", h⟩] := by
  intro formats h h144 hlen
  have hng : normGroup formats h = grpK formats h := normGroup_eq_grpK formats h h144
  have hne : grpK formats h ≠ [] := by
    intro he
    rw [hng, he] at hlen
    simp at hlen
  obtain ⟨c, hc⟩ : ∃ c, lookupA (scanFormats formats).1 h = some c := by
    cases hl : lookupA (scanFormats formats).1 h with
    | none => exact absurd ((lookup_scan_none formats h).mp hl) hne
    | some c => exact ⟨c, rfl⟩
  obtain ⟨⟨pre, post, hsplit, hpre⟩, hmax⟩ := lookup_scan_some formats h c hc
  have hmem : h ∈ (scanFormats formats).1.map Prod.fst := (keys_mem_iff formats h).mpr hne
  refine ⟨c, pre, post, by rw [hng]; exact hsplit, hpre, by rw [hng]; exact hmax, ?_⟩
  rw [bq_unfold, dedupGo_filter, if_neg (List.not_mem_nil _),
    List.find?_append, List.find?_append,
    find_label_keys (scanFormats formats).1 h (by omega)
      (sortDesc ((scanFormats formats).1.map Prod.fst))
      (fun k hk => keys_bounds formats k ((sortDesc_perm _).mem_iff.mp hk))
      ((sortDesc_perm _).mem_iff.mpr hmem)]
  show [ladderQ (scanFormats formats).1 h] = _
  simp [ladderQ, hc]

/-- Witness for C1 (amended): two 1080-height video formats; the ladder
carries exactly one 1080p entry whose id is the first maximal-score
member of the group. -/
theorem spec_c1_witness :
    ∃ chosen pre post,
      normGroup
        [{ format_id := some "137", height := some 1080, vcodec := some "avc1" },
         { format_id := some "248", height := some 1080, vcodec := some "vp9" }] 1080 =
          pre ++ chosen :: post ∧
      (∀ g ∈ pre, format_score g < format_score chosen) ∧
      (∀ g ∈ normGroup
        [{ format_id := some "137", height := some 1080, vcodec := some "avc1" },
         { format_id := some "248", height := some 1080, vcodec := some "vp9" }] 1080,
        format_score g ≤ format_score chosen) ∧
      (build_qualities
        [{ format_id := some "137", height := some 1080, vcodec := some "avc1" },
         { format_id := some "248", height := some 1080, vcodec := some "vp9" }]).filter
          (fun q => q.label == labelOfInt 1080) =
        [⟨labelOfInt 1080, strId chosen, "video", 1080⟩] :=
  spec_c1_amended
    [{ format_id := some "137", height := some 1080, vcodec := some "avc1" },
     { format_id := some "248", height := some 1080, vcodec := some "vp9" }]
    1080 (by decide) (by decide)
